import Mathlib

/-!
Verification of the domain-file merge in `bot/train.py` (`Training.get_domain_file`).

The function builds a dictionary `data` with five fixed keys — `slots` and
`templates` hold Python dicts, `entities`, `intents` and `actions` hold Python
sets — then, for every `*.yml` / `*.yaml` file of the domains directory, runs
`yaml.safe_load` and executes `data[k].update(v)` for each top-level pair of the
loaded mapping.  Afterwards every set value is replaced by a list (dict values
are "updated" with themselves, a no-op) and the result is dumped as YAML into a
temporary file that was created before the loop.

This file embeds those semantics: YAML values are `PyVal`, fragment files are
`YamlFile` (parsed value or malformed), Python's `set.update` / `dict.update` /
truthiness / iteration / hashability are modelled explicitly, and the possible
exceptions (`KeyError`, `AttributeError`, `TypeError`, YAML parse errors) are
an explicit error type.  A small YAML emitter/parser pair (a JSON-flavoured
subset of YAML, value-equivalent to the block style the code emits) models
`yaml.dump` / `yaml.safe_load` for the round-trip property.
-/

/-- A YAML value as produced by `yaml.safe_load`, restricted to the shapes the
merge manipulates: strings, null, sequences and string-keyed mappings. -/
inductive PyVal where
  | str (s : String)
  | null
  | list (xs : List PyVal)
  | map (kvs : List (String × PyVal))

mutual

def pvDecEq : (a b : PyVal) → Decidable (a = b)
  | .str s, .str t =>
      match decEq s t with
      | isTrue h => isTrue (by rw [h])
      | isFalse h => isFalse (fun hh => h (PyVal.str.inj hh))
  | .str _, .null => isFalse (fun h => PyVal.noConfusion h)
  | .str _, .list _ => isFalse (fun h => PyVal.noConfusion h)
  | .str _, .map _ => isFalse (fun h => PyVal.noConfusion h)
  | .null, .str _ => isFalse (fun h => PyVal.noConfusion h)
  | .null, .null => isTrue rfl
  | .null, .list _ => isFalse (fun h => PyVal.noConfusion h)
  | .null, .map _ => isFalse (fun h => PyVal.noConfusion h)
  | .list _, .str _ => isFalse (fun h => PyVal.noConfusion h)
  | .list _, .null => isFalse (fun h => PyVal.noConfusion h)
  | .list xs, .list ys =>
      match pvDecEqList xs ys with
      | isTrue h => isTrue (by rw [h])
      | isFalse h => isFalse (fun hh => h (PyVal.list.inj hh))
  | .list _, .map _ => isFalse (fun h => PyVal.noConfusion h)
  | .map _, .str _ => isFalse (fun h => PyVal.noConfusion h)
  | .map _, .null => isFalse (fun h => PyVal.noConfusion h)
  | .map _, .list _ => isFalse (fun h => PyVal.noConfusion h)
  | .map xs, .map ys =>
      match pvDecEqPairs xs ys with
      | isTrue h => isTrue (by rw [h])
      | isFalse h => isFalse (fun hh => h (PyVal.map.inj hh))

def pvDecEqList : (a b : List PyVal) → Decidable (a = b)
  | [], [] => isTrue rfl
  | [], _ :: _ => isFalse (fun h => List.noConfusion h)
  | _ :: _, [] => isFalse (fun h => List.noConfusion h)
  | x :: xs, y :: ys =>
      match pvDecEq x y with
      | isFalse h => isFalse (fun hh => h (List.cons.inj hh).1)
      | isTrue hx =>
        match pvDecEqList xs ys with
        | isTrue hxs => isTrue (by rw [hx, hxs])
        | isFalse h => isFalse (fun hh => h (List.cons.inj hh).2)

def pvDecEqPairs : (a b : List (String × PyVal)) → Decidable (a = b)
  | [], [] => isTrue rfl
  | [], _ :: _ => isFalse (fun h => List.noConfusion h)
  | _ :: _, [] => isFalse (fun h => List.noConfusion h)
  | (k, v) :: xs, (k2, v2) :: ys =>
      match decEq k k2 with
      | isFalse h => isFalse (fun hh => h (congrArg Prod.fst (List.cons.inj hh).1))
      | isTrue hk =>
        match pvDecEq v v2 with
        | isFalse h => isFalse (fun hh => h (congrArg Prod.snd (List.cons.inj hh).1))
        | isTrue hv =>
          match pvDecEqPairs xs ys with
          | isTrue hxs => isTrue (by rw [hk, hv, hxs])
          | isFalse h => isFalse (fun hh => h (List.cons.inj hh).2)

end

instance : DecidableEq PyVal := pvDecEq

/-- Python truthiness of a YAML value (the `if yaml_data:` test):
`None`, `""`, `[]` and `\x7b\x7d` are falsy, everything else is truthy. -/
def isTruthy : PyVal → Bool
  | .null => false
  | .str s => !s.isEmpty
  | .list xs => !xs.isEmpty
  | .map kvs => !kvs.isEmpty

/-- Python hashability: strings and `None` are hashable, lists and dicts are
not (adding them to a set raises `TypeError`). -/
def hashable : PyVal → Bool
  | .str _ => true
  | .null => true
  | .list _ => false
  | .map _ => false

/-- Python iteration over a value: a string yields its characters (as one-char
strings), a list its elements, a dict its keys; `None` is not iterable. -/
def pyIter : PyVal → Option (List PyVal)
  | .str s => some (s.data.map (fun c => .str (String.singleton c)))
  | .list xs => some xs
  | .map kvs => some (kvs.map (fun p => .str p.1))
  | .null => none

/-- Adding one element to a Python set, modelled as a duplicate-free list in
insertion order. -/
def setInsert (s : List PyVal) (x : PyVal) : List PyVal :=
  if x ∈ s then s else s ++ [x]

/-- The exceptions `get_domain_file` can raise: `data[k]` on an unknown key
(`KeyError`), `.items()` / `.update` on a value lacking the attribute
(`AttributeError`), `set.update` with an unhashable element or non-iterable
argument and `dict.update` with a non-iterable argument or a pair element
that is not a sequence (`TypeError`), a `dict.update` sequence element that
does not have exactly two items (`ValueError`), and a YAML parse failure in
`yaml.safe_load`. -/
inductive MergeError where
  | keyError (k : String)
  | attrError
  | typeError
  | valueError
  | parseError
deriving DecidableEq

instance {ε α : Type} [DecidableEq ε] [DecidableEq α] : DecidableEq (Except ε α) := fun a b =>
  match a, b with
  | .ok x, .ok y =>
      match decEq x y with
      | isTrue h => isTrue (by rw [h])
      | isFalse h => isFalse (fun hh => h (Except.ok.inj hh))
  | .ok _, .error _ => isFalse (fun h => Except.noConfusion h)
  | .error _, .ok _ => isFalse (fun h => Except.noConfusion h)
  | .error x, .error y =>
      match decEq x y with
      | isTrue h => isTrue (by rw [h])
      | isFalse h => isFalse (fun hh => h (Except.error.inj hh))

/-- `set().update(iterable)` element by element: CPython adds elements until it
hits an unhashable one, where it raises `TypeError`. -/
def setUpdate (s : List PyVal) : List PyVal → Except MergeError (List PyVal)
  | [] => .ok s
  | x :: xs => if hashable x then setUpdate (setInsert s x) xs else .error .typeError

/-- Lookup in a Python dict modelled as an association list in insertion
order. -/
def assocLookup (d : List (String × α)) (k : String) : Option α :=
  match d with
  | [] => none
  | (k2, v) :: rest => if k2 = k then some v else assocLookup rest k

/-- `d[k] = v` on a Python dict: replace the value at an existing key in
place, otherwise append the new key at the end. -/
def assocSet (d : List (String × α)) (k : String) (v : α) : List (String × α) :=
  match d with
  | [] => [(k, v)]
  | (k2, v2) :: rest => if k2 = k then (k, v) :: rest else (k2, v2) :: assocSet rest k v

/-- `dict.update(other)` when `other` is a dict: set every pair of `other` in
iteration order (later pairs win). -/
def dictUpdate (d kvs : List (String × PyVal)) : List (String × PyVal) :=
  kvs.foldl (fun a p => assocSet a p.1 p.2) d

/-- A value of the merge dictionary `data`: `slots`/`templates` start as dicts,
`entities`/`intents`/`actions` as sets; the final pass turns sets into lists. -/
inductive DVal where
  | set (s : List PyVal)
  | dict (d : List (String × PyVal))
  | lst (l : List PyVal)
deriving DecidableEq

/-- `dict.update(other)` when `other` is a non-mapping iterable: CPython reads
each element as a key/value pair — an element that is not iterable raises
`TypeError`, one that does not iterate to exactly two values raises
`ValueError`.  Dict keys are modelled as strings (as in `PyVal.map`), so the
key position must be a string; the only other hashable value of the model,
`None`, is rejected here although CPython would admit it as a key. -/
def dictUpdatePairs (d : List (String × PyVal)) :
    List PyVal → Except MergeError (List (String × PyVal))
  | [] => .ok d
  | e :: rest =>
      match pyIter e with
      | none => .error .typeError
      | some l =>
        match l with
        | [PyVal.str k, v] => dictUpdatePairs (assocSet d k v) rest
        | [_, _] => .error .typeError
        | _ => .error .valueError

/-- `data[k].update(v)`: set update (iterate `v`, add hashable elements), dict
update (merge a mapping by key overwrite, or read any other iterable as
key/value pairs), and a list would lack the `update` attribute (unreachable
in the merge loop). -/
def dvalUpdate : DVal → PyVal → Except MergeError DVal
  | .set s, v =>
      match pyIter v with
      | none => .error .typeError
      | some xs => (setUpdate s xs).map .set
  | .dict d, v =>
      match v with
      | .map kvs => .ok (.dict (dictUpdate d kvs))
      | _ =>
        match pyIter v with
        | none => .error .typeError
        | some elems => (dictUpdatePairs d elems).map .dict
  | .lst _, _ => .error .attrError

/-- The initial `data` dictionary of `get_domain_file`. -/
def initData : List (String × DVal) :=
  [("slots", .dict []), ("entities", .set []), ("intents", .set []),
   ("templates", .dict []), ("actions", .set [])]

/-- The inner loop `for k, v in yaml_data.items(): data[k].update(v)`:
an unknown key raises `KeyError`, otherwise the value at `k` is updated. -/
def processItems (data : List (String × DVal)) :
    List (String × PyVal) → Except MergeError (List (String × DVal))
  | [] => .ok data
  | (k, v) :: rest =>
      match assocLookup data k with
      | none => .error (.keyError k)
      | some dv =>
        match dvalUpdate dv v with
        | .error e => .error e
        | .ok dv2 => processItems (assocSet data k dv2) rest

/-- One domain fragment file: either malformed YAML (so `yaml.safe_load`
raises) or a parsed value. -/
inductive YamlFile where
  | malformed
  | parsed (v : PyVal)

/-- Processing one fragment: load it (malformed YAML aborts), skip falsy
values, iterate `.items()` of a mapping (`AttributeError` on anything else). -/
def processFragment (data : List (String × DVal)) :
    YamlFile → Except MergeError (List (String × DVal))
  | .malformed => .error .parseError
  | .parsed y =>
      if isTruthy y then
        match y with
        | .map kvs => processItems data kvs
        | _ => .error .attrError
      else .ok data

/-- Filesystem events of one `get_domain_file` run: creating the temporary
output file, reading one fragment, dumping the merged document. -/
inductive Ev where
  | createTemp
  | readFrag
  | dump
deriving DecidableEq

/-- The fragment loop: read each file in order, abort on the first error;
also records one `readFrag` event per file actually opened. -/
def mergeLoop (data : List (String × DVal)) :
    List YamlFile → List Ev × Except MergeError (List (String × DVal))
  | [] => ([], .ok data)
  | f :: fs =>
      match processFragment data f with
      | .error e => ([.readFrag], .error e)
      | .ok d =>
        let p := mergeLoop d fs
        (.readFrag :: p.1, p.2)

/-- The final pass `for k, v in data.items(): ...`: a set value is replaced by
`list(v)`; otherwise (a dict) the source runs `data[k].update(v)`, i.e. updates
the dict with itself.  A list value never occurs at this point because the
merge loop preserves the set/dict shape of the five initial values. -/
def finalize (data : List (String × DVal)) : List (String × DVal) :=
  data.map (fun p =>
    match p.2 with
    | .set s => (p.1, .lst s)
    | .dict d => (p.1, .dict (dictUpdate d d))
    | .lst l => (p.1, .lst l))

/-- `Training.get_domain_file`, as a function from the list of loaded fragment
files (the glob results, in order) to the merged document or the exception
aborting the merge. -/
def get_domain_file (frags : List YamlFile) : Except MergeError (List (String × DVal)) :=
  match (mergeLoop initData frags).2 with
  | .error e => .error e
  | .ok data => .ok (finalize data)

/-- Observable filesystem outcome of one run: the event trace, whether the
temporary file still exists (it is created with `delete eq False` and never
removed), its contents (`none` = still empty, nothing was dumped), and the
returned value. -/
structure RunResult where
  events : List Ev
  tempFileExists : Bool
  tempFileContents : Option (List (String × DVal))
  result : Except MergeError (List (String × DVal))

/-- `get_domain_file` with its side effects: `tempfile.NamedTemporaryFile`
creates the output file before the loop reads any fragment; `yaml.dump` runs
only after the whole loop succeeded. -/
def get_domain_file_run (frags : List YamlFile) : RunResult :=
  match (mergeLoop initData frags).2 with
  | .error e =>
      { events := Ev.createTemp :: (mergeLoop initData frags).1
        tempFileExists := true
        tempFileContents := none
        result := .error e }
  | .ok data =>
      { events := Ev.createTemp :: (mergeLoop initData frags).1 ++ [Ev.dump]
        tempFileExists := true
        tempFileContents := some (finalize data)
        result := .ok (finalize data) }

/-! ## Association-list lemmas -/

/-- First-defined alternative on options (`a` wins when it is `some`). -/
def optOr {α : Type} (a b : Option α) : Option α :=
  match a with
  | some v => some v
  | none => b

theorem optOr_assoc {α : Type} (a b c : Option α) :
    optOr (optOr a b) c = optOr a (optOr b c) := by
  cases a <;> rfl

theorem optOr_none_right {α : Type} (a : Option α) : optOr a none = a := by
  cases a <;> rfl

theorem assocLookup_assocSet {α : Type} (d : List (String × α)) (k k2 : String) (v : α) :
    assocLookup (assocSet d k v) k2 = if k = k2 then some v else assocLookup d k2 := by
  induction d with
  | nil => simp [assocLookup, assocSet]
  | cons p rest ih =>
    obtain ⟨k3, v3⟩ := p
    by_cases h3 : k3 = k
    · subst h3
      by_cases h2 : k3 = k2 <;> simp [assocLookup, assocSet, h2]
    · by_cases h2 : k3 = k2
      · subst h2
        have hne : ¬ k = k3 := fun h => h3 h.symm
        simp [assocLookup, assocSet, h3, hne]
      · simp [assocLookup, assocSet, h3, h2, ih]

theorem assocLookup_append {α : Type} (a b : List (String × α)) (k : String) :
    assocLookup (a ++ b) k = optOr (assocLookup a k) (assocLookup b k) := by
  induction a with
  | nil => simp [assocLookup, optOr]
  | cons p rest ih =>
    obtain ⟨k3, v3⟩ := p
    by_cases h3 : k3 = k <;> simp [assocLookup, h3, optOr, ih]

theorem assocLookup_eq_none_iff {α : Type} (d : List (String × α)) (k : String) :
    assocLookup d k = none ↔ k ∉ d.map Prod.fst := by
  induction d with
  | nil => simp [assocLookup]
  | cons p rest ih =>
    obtain ⟨k3, v3⟩ := p
    by_cases h3 : k3 = k
    · subst h3
      simp [assocLookup]
    · have hne : ¬ k = k3 := fun h => h3 h.symm
      simp [assocLookup, h3, ih, hne]

theorem assocLookup_eq_some_of_mem_nodupKeys {α : Type} (d : List (String × α))
    (k : String) (v : α) (hnd : (d.map Prod.fst).Nodup) (hm : (k, v) ∈ d) :
    assocLookup d k = some v := by
  induction d with
  | nil => cases hm
  | cons p rest ih =>
    obtain ⟨k3, v3⟩ := p
    simp only [List.map_cons, List.nodup_cons] at hnd
    rcases List.mem_cons.mp hm with h | h
    · cases h
      simp [assocLookup]
    · have hne : k3 ≠ k := by
        intro he
        exact hnd.1 (he ▸ (List.mem_map.mpr ⟨(k, v), h, rfl⟩))
      simp [assocLookup, hne, ih hnd.2 h]

theorem assocSet_eq_self_of_lookup {α : Type} (d : List (String × α)) (k : String) (v : α)
    (h : assocLookup d k = some v) : assocSet d k v = d := by
  induction d with
  | nil => simp [assocLookup] at h
  | cons p rest ih =>
    obtain ⟨k3, v3⟩ := p
    by_cases h3 : k3 = k
    · subst h3
      simp only [assocLookup, if_true, eq_self_iff_true, Option.some.injEq] at h
      subst h
      simp [assocSet]
    · simp only [assocLookup, if_neg h3] at h
      simp [assocSet, h3, ih h]

theorem keys_assocSet {α : Type} (d : List (String × α)) (k : String) (v : α) :
    (assocSet d k v).map Prod.fst =
      if k ∈ d.map Prod.fst then d.map Prod.fst else d.map Prod.fst ++ [k] := by
  induction d with
  | nil => simp [assocSet]
  | cons p rest ih =>
    obtain ⟨k3, v3⟩ := p
    by_cases h3 : k3 = k
    · subst h3
      simp [assocSet]
    · have hne : ¬ k = k3 := fun h => h3 h.symm
      by_cases hm : k ∈ rest.map Prod.fst
      · simp [assocSet, h3, ih, hm, hne]
      · simp [assocSet, h3, ih, hm, hne]

theorem keyNodup_assocSet {α : Type} (d : List (String × α)) (k : String) (v : α)
    (h : (d.map Prod.fst).Nodup) : ((assocSet d k v).map Prod.fst).Nodup := by
  rw [keys_assocSet]
  by_cases hm : k ∈ d.map Prod.fst
  · simpa [hm]
  · simp only [if_neg hm]
    exact h.append (List.nodup_singleton k)
      (fun a ha hb => hm (by rwa [List.mem_singleton.mp hb] at ha))

theorem assocLookup_dictUpdate (d kvs : List (String × PyVal)) (k : String) :
    assocLookup (dictUpdate d kvs) k =
      optOr (assocLookup kvs.reverse k) (assocLookup d k) := by
  induction kvs generalizing d with
  | nil => simp [dictUpdate, assocLookup, optOr]
  | cons p rest ih =>
    obtain ⟨k3, v3⟩ := p
    have step : dictUpdate d ((k3, v3) :: rest) = dictUpdate (assocSet d k3 v3) rest := rfl
    rw [step, ih, List.reverse_cons, assocLookup_append, optOr_assoc]
    congr 1
    rw [assocLookup_assocSet]
    by_cases h3 : k3 = k
    · simp [assocLookup, h3, optOr]
    · simp [assocLookup, h3, optOr]

theorem assocLookup_reverse_of_nodupKeys (d : List (String × PyVal)) (k : String)
    (h : (d.map Prod.fst).Nodup) : assocLookup d.reverse k = assocLookup d k := by
  induction d with
  | nil => rfl
  | cons p rest ih =>
    obtain ⟨k3, v3⟩ := p
    simp only [List.map_cons, List.nodup_cons] at h
    rw [List.reverse_cons, assocLookup_append, ih h.2]
    by_cases h3 : k3 = k
    · subst h3
      have : assocLookup rest k3 = none :=
        (assocLookup_eq_none_iff rest k3).mpr h.1
      simp [this, assocLookup, optOr]
    · simp [assocLookup, h3, optOr_none_right]

theorem assocLookup_dictUpdate_of_mem (d kvs : List (String × PyVal)) (k : String) (v : PyVal)
    (hnd : (kvs.map Prod.fst).Nodup) (hm : assocLookup kvs k = some v) :
    assocLookup (dictUpdate d kvs) k = some v := by
  rw [assocLookup_dictUpdate, assocLookup_reverse_of_nodupKeys kvs k hnd, hm]
  rfl

theorem keyNodup_dictUpdate (d kvs : List (String × PyVal))
    (h : (d.map Prod.fst).Nodup) : ((dictUpdate d kvs).map Prod.fst).Nodup := by
  induction kvs generalizing d with
  | nil => exact h
  | cons p rest ih =>
    have step : dictUpdate d (p :: rest) = dictUpdate (assocSet d p.1 p.2) rest := rfl
    rw [step]
    exact ih _ (keyNodup_assocSet _ _ _ h)

theorem dictUpdate_self_of_nodupKeys (d : List (String × PyVal))
    (h : (d.map Prod.fst).Nodup) : dictUpdate d d = d := by
  have haux : ∀ kvs a, (∀ k v, (k, v) ∈ kvs → assocLookup a k = some v) →
      dictUpdate a kvs = a := by
    intro kvs
    induction kvs with
    | nil => intro a _; rfl
    | cons p rest ih =>
      obtain ⟨k3, v3⟩ := p
      intro a hall
      have step : dictUpdate a ((k3, v3) :: rest) = dictUpdate (assocSet a k3 v3) rest := rfl
      rw [step, assocSet_eq_self_of_lookup a k3 v3 (hall k3 v3 (List.mem_cons_self _ _))]
      exact ih a (fun k v hm => hall k v (List.mem_cons_of_mem _ hm))
  exact haux d d (fun k v hm => assocLookup_eq_some_of_mem_nodupKeys d k v h hm)
/-! ## Set-update lemmas -/

theorem mem_setInsert (s : List PyVal) (x z : PyVal) :
    z ∈ setInsert s x ↔ z ∈ s ∨ z = x := by
  unfold setInsert
  by_cases h : x ∈ s
  · simp only [if_pos h]
    constructor
    · exact fun hz => Or.inl hz
    · rintro (hz | hz)
      · exact hz
      · exact hz ▸ h
  · simp [if_neg h]

theorem nodup_setInsert (s : List PyVal) (x : PyVal) (h : s.Nodup) :
    (setInsert s x).Nodup := by
  unfold setInsert
  by_cases hm : x ∈ s
  · simpa [if_pos hm]
  · simp only [if_neg hm]
    exact List.Nodup.append h (List.nodup_singleton x)
      (fun a ha hb => hm (by rwa [List.mem_singleton.mp hb] at ha))

theorem setUpdate_ok (s : List PyVal) (xs : List PyVal)
    (h : ∀ x ∈ xs, hashable x = true) :
    setUpdate s xs = .ok (xs.foldl setInsert s) := by
  induction xs generalizing s with
  | nil => rfl
  | cons x rest ih =>
    simp only [setUpdate, if_pos (h x (List.mem_cons_self _ _)), List.foldl_cons]
    exact ih _ (fun y hy => h y (List.mem_cons_of_mem _ hy))

theorem mem_foldl_setInsert (xs : List PyVal) (s : List PyVal) (z : PyVal) :
    z ∈ xs.foldl setInsert s ↔ z ∈ s ∨ z ∈ xs := by
  induction xs generalizing s with
  | nil => simp
  | cons x rest ih =>
    simp only [List.foldl_cons, ih, mem_setInsert, List.mem_cons]
    tauto

theorem nodup_foldl_setInsert (xs : List PyVal) (s : List PyVal) (h : s.Nodup) :
    (xs.foldl setInsert s).Nodup := by
  induction xs generalizing s with
  | nil => exact h
  | cons x rest ih => exact ih _ (nodup_setInsert _ _ h)

/-! ## Valid fragments and the shape invariant of `data` -/

/-- The five recognized top-level domain keys, in the order `data` declares
them. -/
def fiveKeys : List String := ["slots", "entities", "intents", "templates", "actions"]

/-- The `data` dictionary with its five fixed keys and the current slots /
entities / intents / templates / actions contents. -/
def mkData (sl : List (String × PyVal)) (en it : List PyVal)
    (tm : List (String × PyVal)) (ac : List PyVal) : List (String × DVal) :=
  [("slots", .dict sl), ("entities", .set en), ("intents", .set it),
   ("templates", .dict tm), ("actions", .set ac)]

/-- A top-level pair of a fragment that the merge digests without an
exception: a mapping under `slots`/`templates`, an iterable of hashable
elements under `entities`/`intents`/`actions`. -/
def validEntry (k : String) (v : PyVal) : Bool :=
  if k = "slots" ∨ k = "templates" then
    match v with
    | .map _ => true
    | _ => false
  else if k = "entities" ∨ k = "intents" ∨ k = "actions" then
    match pyIter v with
    | none => false
    | some xs => xs.all hashable
  else false

/-- A fragment file the merge digests without an exception: well-formed YAML
that is either falsy (skipped) or a mapping all of whose pairs are valid. -/
def validFragment : YamlFile → Bool
  | .malformed => false
  | .parsed v =>
      if isTruthy v then
        match v with
        | .map kvs => kvs.all (fun p => validEntry p.1 p.2)
        | _ => false
      else true

/-- Invariant of the five components of `data`: the sets hold no duplicates
and the dicts have no duplicate keys. -/
structure Good (sl : List (String × PyVal)) (en it : List PyVal)
    (tm : List (String × PyVal)) (ac : List PyVal) : Prop where
  hsl : (sl.map Prod.fst).Nodup
  hen : en.Nodup
  hit : it.Nodup
  htm : (tm.map Prod.fst).Nodup
  hac : ac.Nodup

theorem initData_eq : initData = mkData [] [] [] [] [] := rfl

theorem processItems_slots_step (sl : List (String × PyVal)) (en it : List PyVal)
    (tm : List (String × PyVal)) (ac : List PyVal) (m : List (String × PyVal))
    (rest : List (String × PyVal)) :
    processItems (mkData sl en it tm ac) (("slots", PyVal.map m) :: rest)
      = processItems (mkData (dictUpdate sl m) en it tm ac) rest := rfl

theorem processItems_templates_step (sl : List (String × PyVal)) (en it : List PyVal)
    (tm : List (String × PyVal)) (ac : List PyVal) (m : List (String × PyVal))
    (rest : List (String × PyVal)) :
    processItems (mkData sl en it tm ac) (("templates", PyVal.map m) :: rest)
      = processItems (mkData sl en it (dictUpdate tm m) ac) rest := rfl

theorem processItems_entities_step (sl : List (String × PyVal)) (en it : List PyVal)
    (tm : List (String × PyVal)) (ac : List PyVal) (v : PyVal) (xs s2 : List PyVal)
    (rest : List (String × PyVal))
    (hi : pyIter v = some xs) (hs : setUpdate en xs = .ok s2) :
    processItems (mkData sl en it tm ac) (("entities", v) :: rest)
      = processItems (mkData sl s2 it tm ac) rest := by
  simp [processItems, mkData, assocLookup, dvalUpdate, hi, hs, Except.map, assocSet]

theorem processItems_intents_step (sl : List (String × PyVal)) (en it : List PyVal)
    (tm : List (String × PyVal)) (ac : List PyVal) (v : PyVal) (xs s2 : List PyVal)
    (rest : List (String × PyVal))
    (hi : pyIter v = some xs) (hs : setUpdate it xs = .ok s2) :
    processItems (mkData sl en it tm ac) (("intents", v) :: rest)
      = processItems (mkData sl en s2 tm ac) rest := by
  simp [processItems, mkData, assocLookup, dvalUpdate, hi, hs, Except.map, assocSet]

theorem processItems_actions_step (sl : List (String × PyVal)) (en it : List PyVal)
    (tm : List (String × PyVal)) (ac : List PyVal) (v : PyVal) (xs s2 : List PyVal)
    (rest : List (String × PyVal))
    (hi : pyIter v = some xs) (hs : setUpdate ac xs = .ok s2) :
    processItems (mkData sl en it tm ac) (("actions", v) :: rest)
      = processItems (mkData sl en it tm s2) rest := by
  simp [processItems, mkData, assocLookup, dvalUpdate, hi, hs, Except.map, assocSet]

theorem processItems_good (kvs : List (String × PyVal))
    (h : ∀ p ∈ kvs, validEntry p.1 p.2 = true) :
    ∀ sl en it tm ac, Good sl en it tm ac →
    ∃ sl2 en2 it2 tm2 ac2,
      processItems (mkData sl en it tm ac) kvs = .ok (mkData sl2 en2 it2 tm2 ac2)
        ∧ Good sl2 en2 it2 tm2 ac2 := by
  induction kvs with
  | nil =>
    intro sl en it tm ac hg
    exact ⟨sl, en, it, tm, ac, rfl, hg⟩
  | cons p rest ih =>
    obtain ⟨k, v⟩ := p
    intro sl en it tm ac hg
    have hv : validEntry k v = true := h (k, v) (List.mem_cons_self _ _)
    have hrest : ∀ p ∈ rest, validEntry p.1 p.2 = true :=
      fun p hp => h p (List.mem_cons_of_mem _ hp)
    by_cases hk1 : k = "slots" ∨ k = "templates"
    · cases v with
      | map m =>
        rcases hk1 with rfl | rfl
        · rw [processItems_slots_step]
          exact ih hrest _ _ _ _ _
            ⟨keyNodup_dictUpdate sl m hg.hsl, hg.hen, hg.hit, hg.htm, hg.hac⟩
        · rw [processItems_templates_step]
          exact ih hrest _ _ _ _ _
            ⟨hg.hsl, hg.hen, hg.hit, keyNodup_dictUpdate tm m hg.htm, hg.hac⟩
      | str s => simp [validEntry, hk1] at hv
      | null => simp [validEntry, hk1] at hv
      | list xs => simp [validEntry, hk1] at hv
    · by_cases hk2 : k = "entities" ∨ k = "intents" ∨ k = "actions"
      · cases hi : pyIter v with
        | none => simp [validEntry, hk1, hk2, hi] at hv
        | some xs =>
          have hh : ∀ x ∈ xs, hashable x = true := by
            have := hv
            simp only [validEntry, if_neg hk1, if_pos hk2, hi] at this
            exact List.all_eq_true.mp this
          rcases hk2 with rfl | rfl | rfl
          · rw [processItems_entities_step sl en it tm ac v xs _ rest hi (setUpdate_ok en xs hh)]
            exact ih hrest _ _ _ _ _
              ⟨hg.hsl, nodup_foldl_setInsert xs en hg.hen, hg.hit, hg.htm, hg.hac⟩
          · rw [processItems_intents_step sl en it tm ac v xs _ rest hi (setUpdate_ok it xs hh)]
            exact ih hrest _ _ _ _ _
              ⟨hg.hsl, hg.hen, nodup_foldl_setInsert xs it hg.hit, hg.htm, hg.hac⟩
          · rw [processItems_actions_step sl en it tm ac v xs _ rest hi (setUpdate_ok ac xs hh)]
            exact ih hrest _ _ _ _ _
              ⟨hg.hsl, hg.hen, hg.hit, hg.htm, nodup_foldl_setInsert xs ac hg.hac⟩
      · simp [validEntry, hk1, hk2] at hv

theorem processFragment_good (f : YamlFile) (h : validFragment f = true) :
    ∀ sl en it tm ac, Good sl en it tm ac →
    ∃ sl2 en2 it2 tm2 ac2,
      processFragment (mkData sl en it tm ac) f = .ok (mkData sl2 en2 it2 tm2 ac2)
        ∧ Good sl2 en2 it2 tm2 ac2 := by
  cases f with
  | malformed => simp [validFragment] at h
  | parsed v =>
    intro sl en it tm ac hg
    by_cases ht : isTruthy v = true
    · cases v with
      | map kvs =>
        have hall : ∀ p ∈ kvs, validEntry p.1 p.2 = true := by
          simp only [validFragment, if_pos ht] at h
          exact fun p hp => List.all_eq_true.mp h p hp
        have := processItems_good kvs hall sl en it tm ac hg
        simpa [processFragment, ht] using this
      | str s => simp [validFragment, ht] at h
      | null => simp [validFragment, ht] at h
      | list xs => simp [validFragment, ht] at h
    · refine ⟨sl, en, it, tm, ac, ?_, hg⟩
      simp [processFragment, ht]

theorem mergeLoop_good (frags : List YamlFile)
    (h : ∀ f ∈ frags, validFragment f = true) :
    ∀ sl en it tm ac, Good sl en it tm ac →
    ∃ sl2 en2 it2 tm2 ac2,
      (mergeLoop (mkData sl en it tm ac) frags).2 = .ok (mkData sl2 en2 it2 tm2 ac2)
        ∧ Good sl2 en2 it2 tm2 ac2 := by
  induction frags with
  | nil =>
    intro sl en it tm ac hg
    exact ⟨sl, en, it, tm, ac, rfl, hg⟩
  | cons f rest ih =>
    intro sl en it tm ac hg
    obtain ⟨sl2, en2, it2, tm2, ac2, hpf, hg2⟩ :=
      processFragment_good f (h f (List.mem_cons_self _ _)) sl en it tm ac hg
    have hrest : ∀ f2 ∈ rest, validFragment f2 = true :=
      fun f2 hf => h f2 (List.mem_cons_of_mem _ hf)
    obtain ⟨sl3, en3, it3, tm3, ac3, hml, hg3⟩ := ih hrest sl2 en2 it2 tm2 ac2 hg2
    refine ⟨sl3, en3, it3, tm3, ac3, ?_, hg3⟩
    simp only [mergeLoop, hpf]
    exact hml

/-- Master success lemma: on valid fragments the merge succeeds and the final
document is the five keys with slot/template dicts and duplicate-free lists. -/
theorem get_domain_file_good (frags : List YamlFile)
    (h : ∀ f ∈ frags, validFragment f = true) :
    ∃ sl en it tm ac,
      get_domain_file frags
        = .ok [("slots", .dict sl), ("entities", .lst en), ("intents", .lst it),
               ("templates", .dict tm), ("actions", .lst ac)]
        ∧ Good sl en it tm ac := by
  obtain ⟨sl, en, it, tm, ac, hml, hg⟩ :=
    mergeLoop_good frags h [] [] [] [] [] ⟨List.nodup_nil, List.nodup_nil,
      List.nodup_nil, List.nodup_nil, List.nodup_nil⟩
  refine ⟨sl, en, it, tm, ac, ?_, hg⟩
  rw [← initData_eq] at hml
  unfold get_domain_file
  rw [hml]
  show Except.ok (finalize (mkData sl en it tm ac)) = _
  rw [show finalize (mkData sl en it tm ac)
      = [("slots", DVal.dict (dictUpdate sl sl)), ("entities", DVal.lst en),
         ("intents", DVal.lst it), ("templates", DVal.dict (dictUpdate tm tm)),
         ("actions", DVal.lst ac)] from rfl]
  rw [dictUpdate_self_of_nodupKeys sl hg.hsl, dictUpdate_self_of_nodupKeys tm hg.htm]

/-! ## Merge-loop lemmas -/

theorem mergeLoop_append_snd (data : List (String × DVal)) (l1 l2 : List YamlFile) :
    (mergeLoop data (l1 ++ l2)).2 =
      match (mergeLoop data l1).2 with
      | .error e => .error e
      | .ok d => (mergeLoop d l2).2 := by
  induction l1 generalizing data with
  | nil => simp [mergeLoop]
  | cons f rest ih =>
    simp only [List.cons_append, mergeLoop]
    cases processFragment data f with
    | error e => rfl
    | ok d => exact ih d

theorem mergeLoop_events (data : List (String × DVal)) (frags : List YamlFile) :
    ∀ e ∈ (mergeLoop data frags).1, e = Ev.readFrag := by
  induction frags generalizing data with
  | nil => intro e he; cases he
  | cons f rest ih =>
    intro e he
    simp only [mergeLoop] at he
    cases hp : processFragment data f with
    | error e2 =>
      rw [hp] at he
      simp only [List.mem_singleton] at he
      exact he
    | ok d =>
      rw [hp] at he
      simp only [List.mem_cons] at he
      rcases he with he | he
      · exact he
      · exact ih d e he

/-! ## Error propagation for unrecognized keys -/

theorem mem_keys_of_lookup_some {α : Type} (d : List (String × α)) (k : String) (v : α)
    (h : assocLookup d k = some v) : k ∈ d.map Prod.fst := by
  by_contra hn
  rw [← assocLookup_eq_none_iff] at hn
  rw [h] at hn
  cases hn

theorem processItems_error_of_badkey (kvs : List (String × PyVal)) (k : String) (w : PyVal) :
    ∀ data, (k, w) ∈ kvs → assocLookup data k = none →
    ∃ e, processItems data kvs = .error e := by
  induction kvs with
  | nil =>
    intro data hm
    cases hm
  | cons p rest ih =>
    obtain ⟨k0, v0⟩ := p
    intro data hm hnone
    cases hl : assocLookup data k0 with
    | none => exact ⟨.keyError k0, by simp [processItems, hl]⟩
    | some dv =>
      cases hu : dvalUpdate dv v0 with
      | error e => exact ⟨e, by simp [processItems, hl, hu]⟩
      | ok dv2 =>
        rcases List.mem_cons.mp hm with he | he
        · injection he with he1 he2
          subst he1
          rw [hl] at hnone
          cases hnone
        · have hne : k0 ≠ k := by
            intro hh
            rw [← hh, hl] at hnone
            cases hnone
          have hnone2 : assocLookup (assocSet data k0 dv2) k = none := by
            rw [assocLookup_assocSet, if_neg hne]
            exact hnone
          obtain ⟨e, he2⟩ := ih (assocSet data k0 dv2) he hnone2
          exact ⟨e, by simp [processItems, hl, hu, he2]⟩

theorem processItems_keys (kvs : List (String × PyVal)) :
    ∀ data d2, processItems data kvs = .ok d2 → d2.map Prod.fst = data.map Prod.fst := by
  induction kvs with
  | nil =>
    intro data d2 h
    simp only [processItems, Except.ok.injEq] at h
    rw [h]
  | cons p rest ih =>
    obtain ⟨k0, v0⟩ := p
    intro data d2 h
    cases hl : assocLookup data k0 with
    | none => simp [processItems, hl] at h
    | some dv =>
      cases hu : dvalUpdate dv v0 with
      | error e => simp [processItems, hl, hu] at h
      | ok dv2 =>
        simp only [processItems, hl, hu] at h
        rw [ih _ _ h, keys_assocSet, if_pos (mem_keys_of_lookup_some data k0 dv hl)]

theorem processFragment_keys (f : YamlFile) (data d2 : List (String × DVal))
    (h : processFragment data f = .ok d2) : d2.map Prod.fst = data.map Prod.fst := by
  cases f with
  | malformed => cases h
  | parsed v =>
    by_cases ht : isTruthy v = true
    · cases v with
      | map kvs =>
        simp only [processFragment, if_pos ht] at h
        exact processItems_keys kvs data d2 h
      | str s => simp [processFragment, ht] at h
      | null => simp [isTruthy] at ht
      | list xs => simp [processFragment, ht] at h
    · simp only [processFragment, if_neg ht, Except.ok.injEq] at h
      rw [h]

theorem mergeLoop_error_of_badfrag (kvs : List (String × PyVal)) (k : String) (w : PyVal)
    (hkv : (k, w) ∈ kvs) :
    ∀ frags data, YamlFile.parsed (.map kvs) ∈ frags → assocLookup data k = none →
    ∃ e, (mergeLoop data frags).2 = .error e := by
  intro frags
  induction frags with
  | nil =>
    intro data hmem
    cases hmem
  | cons f rest ih =>
    intro data hmem hnone
    cases hpf : processFragment data f with
    | error e => exact ⟨e, by simp [mergeLoop, hpf]⟩
    | ok d2 =>
      rcases List.mem_cons.mp hmem with he | he
      · exfalso
        have htr : isTruthy (PyVal.map kvs) = true := by
          cases kvs with
          | nil => cases hkv
          | cons a b => simp [isTruthy]
        obtain ⟨e, he2⟩ := processItems_error_of_badkey kvs k w data hkv hnone
        rw [← he] at hpf
        simp only [processFragment, if_pos htr] at hpf
        rw [he2] at hpf
        cases hpf
      · have hnone2 : assocLookup d2 k = none := by
          rw [assocLookup_eq_none_iff] at hnone ⊢
          rw [processFragment_keys f data d2 hpf]
          exact hnone
        obtain ⟨e, he2⟩ := ih d2 he hnone2
        exact ⟨e, by simp [mergeLoop, hpf, he2]⟩

example :
    get_domain_file [.parsed (.map [("intents", .list [.str "a", .str "b"])]),
                     .parsed (.map [("intents", .list [.str "b", .str "c"])])]
      = .ok [("slots", .dict []), ("entities", .lst []),
             ("intents", .lst [.str "a", .str "b", .str "c"]),
             ("templates", .dict []), ("actions", .lst [])] := by
  decide

example :
    get_domain_file [.parsed (.map [("foo", .null)])] = .error (.keyError "foo") := by
  decide

example :
    get_domain_file [.parsed (.list [.str "a"])] = .error .attrError := by
  decide

example :
    get_domain_file [.parsed (.map [("intents", .str "ab")])]
      = .ok [("slots", .dict []), ("entities", .lst []),
             ("intents", .lst [.str "a", .str "b"]),
             ("templates", .dict []), ("actions", .lst [])] := by
  decide

/-! ## A serializer for the YAML subset: models yaml.dump and yaml.safe_load

`get_domain_file` dumps the merged dictionary with `yaml.dump` and the
round-trip property re-loads it with `yaml.safe_load`.  Both live in the
external PyYAML library, so they are modelled here by a concrete
emitter/parser pair for a JSON-flavoured subset of YAML (flow style, quoted
strings).  The style differs from the block style the code emits, but the
parsed value is the same; what matters for the round-trip claim is that
parsing inverts emission, which is proved below. -/

def lbrace : Char := '\x7b'

def rbrace : Char := '\x7d'

/-- Escape a double quote or backslash inside an emitted string. -/
def escapeChars : List Char → List Char
  | [] => []
  | c :: cs => if c = '"' ∨ c = '\\' then '\\' :: c :: escapeChars cs else c :: escapeChars cs

mutual

/-- Parse the remainder of a quoted string up to its closing quote. -/
def parseStrChars : List Char → Option (List Char × List Char)
  | [] => none
  | c :: rest =>
      if c = '"' then some ([], rest)
      else if c = '\\' then parseEscaped rest
      else (parseStrChars rest).map (fun p => (c :: p.1, p.2))

/-- Parse the character following a backslash escape. -/
def parseEscaped : List Char → Option (List Char × List Char)
  | [] => none
  | c2 :: rest2 => (parseStrChars rest2).map (fun p => (c2 :: p.1, p.2))

end

theorem parseStrChars_escape (s : List Char) (rest : List Char) :
    parseStrChars (escapeChars s ++ '"' :: rest) = some (s, rest) := by
  induction s with
  | nil => simp [escapeChars, parseStrChars]
  | cons c cs ih =>
    by_cases hc : c = '"' ∨ c = '\\'
    · simp only [escapeChars, if_pos hc, List.cons_append]
      rw [show ∀ l : List Char, parseStrChars ('\\' :: c :: l)
          = (parseStrChars l).map (fun p => (c :: p.1, p.2)) from fun l => rfl]
      rw [ih]
      rfl
    · rw [not_or] at hc
      simp only [escapeChars, if_neg (not_or.mpr hc), List.cons_append]
      rw [parseStrChars, if_neg hc.1, if_neg hc.2, ih]
      rfl

mutual

/-- Emit one YAML value (JSON-flavoured flow style). -/
def emitChars : PyVal → List Char
  | .null => ['n', 'u', 'l', 'l']
  | .str s => '"' :: (escapeChars s.data ++ ['"'])
  | .list xs => '[' :: emitList xs
  | .map kvs => lbrace :: emitMap kvs

/-- Emit the items of a flow sequence, including the closing bracket. -/
def emitList : List PyVal → List Char
  | [] => [']']
  | x :: [] => emitChars x ++ [']']
  | x :: y :: xs => emitChars x ++ (',' :: emitList (y :: xs))

/-- Emit the pairs of a flow mapping, including the closing brace. -/
def emitMap : List (String × PyVal) → List Char
  | [] => [rbrace]
  | (k, v) :: [] =>
      ('"' :: escapeChars k.data) ++ ('"' :: ':' :: emitChars v) ++ [rbrace]
  | (k, v) :: q :: kvs =>
      ('"' :: escapeChars k.data) ++ ('"' :: ':' :: emitChars v) ++ (',' :: emitMap (q :: kvs))

end

/-- Recognize the tail `ull` of the literal `null`. -/
def parseNullTail : List Char → Option (PyVal × List Char)
  | 'u' :: 'l' :: 'l' :: rest2 => some (.null, rest2)
  | _ => none

mutual

/-- Parse one YAML value of the emitted subset (fuel-bounded). -/
def parsePV : Nat → List Char → Option (PyVal × List Char)
  | 0, _ => none
  | _ + 1, [] => none
  | f + 1, c :: rest =>
      if c = '"' then (parseStrChars rest).map (fun p => (.str (String.mk p.1), p.2))
      else if c = '[' then (parseItems f rest).map (fun p => (.list p.1, p.2))
      else if c = lbrace then (parsePairs f rest).map (fun p => (.map p.1, p.2))
      else if c = 'n' then parseNullTail rest
      else none

/-- Parse the items of a flow sequence up to the closing bracket. -/
def parseItems : Nat → List Char → Option (List PyVal × List Char)
  | 0, _ => none
  | _ + 1, [] => none
  | f + 1, c :: rest =>
      if c = ']' then some ([], rest)
      else
        match parsePV f (c :: rest) with
        | none => none
        | some (v, r) =>
          match r with
          | ',' :: r2 => (parseItems f r2).map (fun p => (v :: p.1, p.2))
          | ']' :: r2 => some ([v], r2)
          | _ => none

/-- Parse the pairs of a flow mapping up to the closing brace. -/
def parsePairs : Nat → List Char → Option (List (String × PyVal) × List Char)
  | 0, _ => none
  | _ + 1, [] => none
  | f + 1, c :: rest =>
      if c = rbrace then some ([], rest)
      else if c = '"' then
        match parseStrChars rest with
        | none => none
        | some (k, r) =>
          match r with
          | ':' :: r2 =>
            match parsePV f r2 with
            | none => none
            | some (v, r3) =>
              match r3 with
              | ',' :: r4 => (parsePairs f r4).map (fun p => ((String.mk k, v) :: p.1, p.2))
              | c2 :: r4 => if c2 = rbrace then some ([(String.mk k, v)], r4) else none
              | _ => none
          | _ => none
      else none

end

mutual

/-- Fuel sufficient for `parsePV` on the emission of a value. -/
def pvFuel : PyVal → Nat
  | .str _ => 1
  | .null => 1
  | .list xs => 1 + itemsFuel xs
  | .map kvs => 1 + pairsFuel kvs

/-- Fuel sufficient for `parseItems` on emitted sequence items. -/
def itemsFuel : List PyVal → Nat
  | [] => 1
  | x :: xs => 1 + max (pvFuel x) (itemsFuel xs)

/-- Fuel sufficient for `parsePairs` on emitted mapping pairs. -/
def pairsFuel : List (String × PyVal) → Nat
  | [] => 1
  | (_, v) :: kvs => 1 + max (pvFuel v) (pairsFuel kvs)

end

/-! ## Parsing inverts emission -/

theorem string_mk_data (s : String) : String.mk s.data = s := rfl

theorem pvFuel_pos (v : PyVal) : 1 ≤ pvFuel v := by
  cases v with
  | str s => exact le_refl 1
  | null => exact le_refl 1
  | list xs =>
    show 1 ≤ 1 + itemsFuel xs
    omega
  | map kvs =>
    show 1 ≤ 1 + pairsFuel kvs
    omega

theorem itemsFuel_pos (xs : List PyVal) : 1 ≤ itemsFuel xs := by
  cases xs with
  | nil => exact le_refl 1
  | cons x l =>
    show 1 ≤ 1 + max (pvFuel x) (itemsFuel l)
    omega

theorem pairsFuel_pos (kvs : List (String × PyVal)) : 1 ≤ pairsFuel kvs := by
  cases kvs with
  | nil => exact le_refl 1
  | cons p l =>
    obtain ⟨k, v⟩ := p
    show 1 ≤ 1 + max (pvFuel v) (pairsFuel l)
    omega

theorem emitChars_head (v : PyVal) :
    ∃ c cs, emitChars v = c :: cs
      ∧ ¬ c = ']' ∧ ¬ c = ',' ∧ ¬ c = rbrace ∧ ¬ c = ':' := by
  cases v with
  | str s =>
    exact ⟨'"', escapeChars s.data ++ ['"'], rfl, by decide, by decide, by decide, by decide⟩
  | null => exact ⟨'n', ['u', 'l', 'l'], rfl, by decide, by decide, by decide, by decide⟩
  | list xs => exact ⟨'[', emitList xs, rfl, by decide, by decide, by decide, by decide⟩
  | map kvs => exact ⟨lbrace, emitMap kvs, rfl, by decide, by decide, by decide, by decide⟩

theorem parseItems_step_cons (f : Nat) (c : Char) (cs : List Char) (x : PyVal) (r2 : List Char)
    (hc : ¬ c = ']') (hx : parsePV f (c :: cs) = some (x, ',' :: r2)) :
    parseItems (f + 1) (c :: cs) = (parseItems f r2).map (fun p => (x :: p.1, p.2)) := by
  rw [parseItems, if_neg hc, hx]
  rfl

theorem parseItems_step_last (f : Nat) (c : Char) (cs : List Char) (x : PyVal) (r2 : List Char)
    (hc : ¬ c = ']') (hx : parsePV f (c :: cs) = some (x, ']' :: r2)) :
    parseItems (f + 1) (c :: cs) = some ([x], r2) := by
  rw [parseItems, if_neg hc, hx]
  rfl

theorem parsePairs_step_cons (f : Nat) (l : List Char) (k : List Char) (x : PyVal)
    (r r2 : List Char)
    (hk : parseStrChars l = some (k, ':' :: r)) (hx : parsePV f r = some (x, ',' :: r2)) :
    parsePairs (f + 1) ('"' :: l)
      = (parsePairs f r2).map (fun p => ((String.mk k, x) :: p.1, p.2)) := by
  rw [parsePairs, if_neg (by decide), if_pos rfl]
  simp only [hk, hx]

theorem parsePairs_step_last (f : Nat) (l : List Char) (k : List Char) (x : PyVal)
    (r r2 : List Char)
    (hk : parseStrChars l = some (k, ':' :: r)) (hx : parsePV f r = some (x, rbrace :: r2)) :
    parsePairs (f + 1) ('"' :: l) = some ([(String.mk k, x)], r2) := by
  rw [parsePairs, if_neg (by decide), if_pos rfl]
  simp only [hk, hx]
  rfl

theorem parse_emit_all : ∀ f : Nat,
    (∀ v rest, pvFuel v ≤ f → parsePV f (emitChars v ++ rest) = some (v, rest))
    ∧ (∀ xs rest, itemsFuel xs ≤ f → parseItems f (emitList xs ++ rest) = some (xs, rest))
    ∧ (∀ kvs rest, pairsFuel kvs ≤ f → parsePairs f (emitMap kvs ++ rest) = some (kvs, rest)) := by
  intro f
  induction f with
  | zero =>
    refine ⟨?_, ?_, ?_⟩
    · intro v rest h
      have := pvFuel_pos v
      omega
    · intro xs rest h
      have := itemsFuel_pos xs
      omega
    · intro kvs rest h
      have := pairsFuel_pos kvs
      omega
  | succ f ih =>
    obtain ⟨ihv, ihl, ihm⟩ := ih
    refine ⟨?_, ?_, ?_⟩
    · intro v rest h
      cases v with
      | null => rfl
      | str s =>
        have heq : emitChars (PyVal.str s) ++ rest
            = '"' :: (escapeChars s.data ++ '"' :: rest) := by
          show ('"' :: (escapeChars s.data ++ ['"'])) ++ rest = _
          simp [List.append_assoc]
        rw [heq]
        rw [show parsePV (f + 1) ('"' :: (escapeChars s.data ++ '"' :: rest))
            = (parseStrChars (escapeChars s.data ++ '"' :: rest)).map
                (fun p => (PyVal.str (String.mk p.1), p.2)) from rfl]
        rw [parseStrChars_escape]
        rfl
      | list xs =>
        have hfl : itemsFuel xs ≤ f := by
          have e : pvFuel (PyVal.list xs) = 1 + itemsFuel xs := rfl
          rw [e] at h
          omega
        rw [show emitChars (PyVal.list xs) ++ rest = '[' :: (emitList xs ++ rest) from rfl]
        rw [show parsePV (f + 1) ('[' :: (emitList xs ++ rest))
            = (parseItems f (emitList xs ++ rest)).map (fun p => (PyVal.list p.1, p.2)) from rfl]
        rw [ihl xs rest hfl]
        rfl
      | map kvs =>
        have hfl : pairsFuel kvs ≤ f := by
          have e : pvFuel (PyVal.map kvs) = 1 + pairsFuel kvs := rfl
          rw [e] at h
          omega
        rw [show emitChars (PyVal.map kvs) ++ rest = lbrace :: (emitMap kvs ++ rest) from rfl]
        rw [show parsePV (f + 1) (lbrace :: (emitMap kvs ++ rest))
            = (parsePairs f (emitMap kvs ++ rest)).map (fun p => (PyVal.map p.1, p.2)) from rfl]
        rw [ihm kvs rest hfl]
        rfl
    · intro xs rest h
      cases xs with
      | nil => rfl
      | cons x xs2 =>
        obtain ⟨c, cs, hemit, hc1, hc2, hc3, hc4⟩ := emitChars_head x
        cases xs2 with
        | nil =>
          have hfx : pvFuel x ≤ f := by
            have e : itemsFuel [x] = 1 + max (pvFuel x) (itemsFuel ([] : List PyVal)) := rfl
            rw [e] at h
            have h1 : max (pvFuel x) (itemsFuel ([] : List PyVal)) ≤ f := by omega
            exact le_trans (Nat.le_max_left _ _) h1
          have heq : emitList [x] ++ rest = emitChars x ++ (']' :: rest) := by
            show (emitChars x ++ [']']) ++ rest = _
            simp [List.append_assoc]
          have hx : parsePV f (emitChars x ++ (']' :: rest)) = some (x, ']' :: rest) :=
            ihv x (']' :: rest) hfx
          rw [heq, hemit, List.cons_append]
          rw [hemit, List.cons_append] at hx
          exact parseItems_step_last f c (cs ++ ']' :: rest) x rest hc1 hx
        | cons y ys =>
          have e : itemsFuel (x :: y :: ys) = 1 + max (pvFuel x) (itemsFuel (y :: ys)) := rfl
          have h1 : max (pvFuel x) (itemsFuel (y :: ys)) ≤ f := by
            rw [e] at h
            omega
          have hfx : pvFuel x ≤ f := le_trans (Nat.le_max_left _ _) h1
          have hfr : itemsFuel (y :: ys) ≤ f := le_trans (Nat.le_max_right _ _) h1
          have heq : emitList (x :: y :: ys) ++ rest
              = emitChars x ++ (',' :: (emitList (y :: ys) ++ rest)) := by
            show (emitChars x ++ (',' :: emitList (y :: ys))) ++ rest = _
            simp [List.append_assoc]
          have hx : parsePV f (emitChars x ++ (',' :: (emitList (y :: ys) ++ rest)))
              = some (x, ',' :: (emitList (y :: ys) ++ rest)) := ihv x _ hfx
          rw [heq, hemit, List.cons_append]
          rw [hemit, List.cons_append] at hx
          rw [parseItems_step_cons f c _ x _ hc1 hx]
          rw [ihl (y :: ys) rest hfr]
          rfl
    · intro kvs rest h
      cases kvs with
      | nil => rfl
      | cons p kvs2 =>
        obtain ⟨k, v⟩ := p
        cases kvs2 with
        | nil =>
          have hfx : pvFuel v ≤ f := by
            have e : pairsFuel [(k, v)]
                = 1 + max (pvFuel v) (pairsFuel ([] : List (String × PyVal))) := rfl
            rw [e] at h
            have h1 : max (pvFuel v) (pairsFuel ([] : List (String × PyVal))) ≤ f := by omega
            exact le_trans (Nat.le_max_left _ _) h1
          have heq : emitMap [(k, v)] ++ rest
              = '"' :: (escapeChars k.data ++ '"' :: (':' :: (emitChars v ++ rbrace :: rest))) := by
            show ((('"' :: escapeChars k.data) ++ ('"' :: ':' :: emitChars v)) ++ [rbrace]) ++ rest = _
            simp [List.append_assoc]
          have hk2 : parseStrChars
              (escapeChars k.data ++ '"' :: (':' :: (emitChars v ++ rbrace :: rest)))
              = some (k.data, ':' :: (emitChars v ++ rbrace :: rest)) :=
            parseStrChars_escape k.data _
          have hx : parsePV f (emitChars v ++ rbrace :: rest) = some (v, rbrace :: rest) :=
            ihv v _ hfx
          rw [heq]
          rw [parsePairs_step_last f _ k.data v (emitChars v ++ rbrace :: rest) rest hk2 hx]
        | cons q kvs3 =>
          have e : pairsFuel ((k, v) :: q :: kvs3)
              = 1 + max (pvFuel v) (pairsFuel (q :: kvs3)) := rfl
          have h1 : max (pvFuel v) (pairsFuel (q :: kvs3)) ≤ f := by
            rw [e] at h
            omega
          have hfx : pvFuel v ≤ f := le_trans (Nat.le_max_left _ _) h1
          have hfr : pairsFuel (q :: kvs3) ≤ f := le_trans (Nat.le_max_right _ _) h1
          have heq : emitMap ((k, v) :: q :: kvs3) ++ rest
              = '"' :: (escapeChars k.data
                  ++ '"' :: (':' :: (emitChars v ++ ',' :: (emitMap (q :: kvs3) ++ rest)))) := by
            show ((('"' :: escapeChars k.data) ++ ('"' :: ':' :: emitChars v))
                ++ (',' :: emitMap (q :: kvs3))) ++ rest = _
            simp [List.append_assoc]
          have hk2 : parseStrChars
              (escapeChars k.data
                ++ '"' :: (':' :: (emitChars v ++ ',' :: (emitMap (q :: kvs3) ++ rest))))
              = some (k.data, ':' :: (emitChars v ++ ',' :: (emitMap (q :: kvs3) ++ rest))) :=
            parseStrChars_escape k.data _
          have hx : parsePV f (emitChars v ++ ',' :: (emitMap (q :: kvs3) ++ rest))
              = some (v, ',' :: (emitMap (q :: kvs3) ++ rest)) := ihv v _ hfx
          rw [heq]
          rw [parsePairs_step_cons f _ k.data v
              (emitChars v ++ ',' :: (emitMap (q :: kvs3) ++ rest))
              (emitMap (q :: kvs3) ++ rest) hk2 hx]
          rw [ihm (q :: kvs3) rest hfr]
          rfl

/-- Structural induction over `PyVal` with membership hypotheses for the
nested lists. -/
theorem PyVal.indOn (motive : PyVal → Prop)
    (hstr : ∀ s, motive (.str s)) (hnull : motive .null)
    (hlist : ∀ xs, (∀ x, x ∈ xs → motive x) → motive (.list xs))
    (hmap : ∀ kvs, (∀ p, p ∈ kvs → motive p.2) → motive (.map kvs)) :
    ∀ v, motive v
  | .str s => hstr s
  | .null => hnull
  | .list xs => hlist xs (fun x hx => PyVal.indOn motive hstr hnull hlist hmap x)
  | .map kvs => hmap kvs (fun p hp => PyVal.indOn motive hstr hnull hlist hmap p.2)
termination_by v => sizeOf v
decreasing_by
  · have h1 : sizeOf x < sizeOf xs := List.sizeOf_lt_of_mem hx
    have h2 : sizeOf (PyVal.list xs) = 1 + sizeOf xs := by simp
    omega
  · have h1 : sizeOf p < sizeOf kvs := List.sizeOf_lt_of_mem hp
    have h2 : sizeOf p.2 < sizeOf p := by
      obtain ⟨a, b⟩ := p
      have h3 : sizeOf ((a, b) : String × PyVal) = 1 + sizeOf a + sizeOf b := by simp
      have h4 : 0 < sizeOf a := by
        cases a
        simp
      simp only [h3]
      omega
    have h5 : sizeOf (PyVal.map kvs) = 1 + sizeOf kvs := by simp
    omega

theorem emit_fuel_bound : ∀ v : PyVal, pvFuel v ≤ (emitChars v).length := by
  intro v
  induction v using PyVal.indOn with
  | hstr s =>
    show 1 ≤ ('"' :: (escapeChars s.data ++ ['"'])).length
    simp
  | hnull =>
    show 1 ≤ (['n', 'u', 'l', 'l'] : List Char).length
    simp
  | hlist xs ih =>
    have haux : ∀ l : List PyVal, (∀ x, x ∈ l → pvFuel x ≤ (emitChars x).length)
        → itemsFuel l ≤ (emitList l).length := by
      intro l
      induction l with
      | nil =>
        intro _
        show 1 ≤ ([']'] : List Char).length
        simp
      | cons x l2 ihl =>
        intro hmem
        have h1 : pvFuel x ≤ (emitChars x).length := hmem x (List.mem_cons_self _ _)
        have h0 : 1 ≤ pvFuel x := pvFuel_pos x
        cases l2 with
        | nil =>
          show 1 + max (pvFuel x) (itemsFuel ([] : List PyVal))
              ≤ (emitChars x ++ [']']).length
          rw [show itemsFuel ([] : List PyVal) = 1 from rfl,
              Nat.max_eq_left h0, List.length_append]
          simp
          omega
        | cons y l3 =>
          have h2 : itemsFuel (y :: l3) ≤ (emitList (y :: l3)).length :=
            ihl (fun x2 hx2 => hmem x2 (List.mem_cons_of_mem _ hx2))
          show 1 + max (pvFuel x) (itemsFuel (y :: l3))
              ≤ (emitChars x ++ (',' :: emitList (y :: l3))).length
          have h3 : max (pvFuel x) (itemsFuel (y :: l3))
              ≤ (emitChars x).length + (emitList (y :: l3)).length :=
            Nat.max_le.mpr ⟨le_trans h1 (Nat.le_add_right _ _),
                            le_trans h2 (Nat.le_add_left _ _)⟩
          rw [List.length_append]
          simp only [List.length_cons]
          omega
    have h4 := haux xs ih
    show 1 + itemsFuel xs ≤ ('[' :: emitList xs).length
    simp only [List.length_cons]
    omega
  | hmap kvs ih =>
    have haux : ∀ l : List (String × PyVal), (∀ p, p ∈ l → pvFuel p.2 ≤ (emitChars p.2).length)
        → pairsFuel l ≤ (emitMap l).length := by
      intro l
      induction l with
      | nil =>
        intro _
        show 1 ≤ ([rbrace] : List Char).length
        simp
      | cons p l2 ihl =>
        obtain ⟨k, v⟩ := p
        intro hmem
        have h1 : pvFuel v ≤ (emitChars v).length := hmem (k, v) (List.mem_cons_self _ _)
        have h0 : 1 ≤ pvFuel v := pvFuel_pos v
        cases l2 with
        | nil =>
          show 1 + max (pvFuel v) (pairsFuel ([] : List (String × PyVal)))
              ≤ ((('"' :: escapeChars k.data) ++ ('"' :: ':' :: emitChars v)) ++ [rbrace]).length
          rw [show pairsFuel ([] : List (String × PyVal)) = 1 from rfl,
              Nat.max_eq_left h0]
          simp only [List.length_append, List.length_cons]
          omega
        | cons q l3 =>
          have h2 : pairsFuel (q :: l3) ≤ (emitMap (q :: l3)).length :=
            ihl (fun p2 hp2 => hmem p2 (List.mem_cons_of_mem _ hp2))
          show 1 + max (pvFuel v) (pairsFuel (q :: l3))
              ≤ ((('"' :: escapeChars k.data) ++ ('"' :: ':' :: emitChars v))
                  ++ (',' :: emitMap (q :: l3))).length
          have h3 : max (pvFuel v) (pairsFuel (q :: l3))
              ≤ (emitChars v).length + (emitMap (q :: l3)).length :=
            Nat.max_le.mpr ⟨le_trans h1 (Nat.le_add_right _ _),
                            le_trans h2 (Nat.le_add_left _ _)⟩
          simp only [List.length_append, List.length_cons]
          omega
    have h4 := haux kvs ih
    show 1 + pairsFuel kvs ≤ (lbrace :: emitMap kvs).length
    simp only [List.length_cons]
    omega

/-- `yaml.dump` of a value of the subset (as the serialized text). -/
def yamlDump (v : PyVal) : String := String.mk (emitChars v)

/-- `yaml.safe_load` restricted to the emitted subset: parse one value that
must consume the whole input. -/
def yamlSafeLoad (s : String) : Option PyVal :=
  match parsePV (s.data.length + 1) s.data with
  | some (v, []) => some v
  | _ => none

/-- Serializing a value and re-parsing the text yields the value back. -/
theorem yaml_roundtrip (v : PyVal) : yamlSafeLoad (yamlDump v) = some v := by
  unfold yamlSafeLoad yamlDump
  have hdata : (String.mk (emitChars v)).data = emitChars v := rfl
  rw [hdata]
  have hf : pvFuel v ≤ (emitChars v).length + 1 :=
    le_trans (emit_fuel_bound v) (Nat.le_succ _)
  have hp := (parse_emit_all ((emitChars v).length + 1)).1 v [] hf
  rw [List.append_nil] at hp
  rw [hp]

/-! ## Dumping the merged document -/

/-- One `data` value as the YAML value `yaml.dump` serializes: a list for the
converted sets, a mapping for the dicts; a raw Python set has no faithful form
under safe YAML dumping (the final pass of the code removes all sets first). -/
def dvalToPyVal : DVal → Option PyVal
  | .lst l => some (.list l)
  | .dict d => some (.map d)
  | .set _ => none

/-- The pairs of the merged document as YAML pairs (when no raw set is left). -/
def docPairs : List (String × DVal) → Option (List (String × PyVal))
  | [] => some []
  | (k, dv) :: rest =>
      match dvalToPyVal dv, docPairs rest with
      | some pv, some ps => some ((k, pv) :: ps)
      | _, _ => none

/-- The merged document as one YAML mapping value. -/
def docToPyVal (doc : List (String × DVal)) : Option PyVal :=
  (docPairs doc).map PyVal.map

/-- `yaml.dump(dict(data), file)`: the serialized text of the document. -/
def dumpDoc (doc : List (String × DVal)) : Option String :=
  (docToPyVal doc).map yamlDump

/-- The re-parsed value is equivalent to the merged document: it is a mapping
with the same keys, the same slot/template mappings, and the same contents of
each list-valued key as sets, ignoring list order. -/
def docEquiv (pv : PyVal) (doc : List (String × DVal)) : Prop :=
  ∃ m, pv = PyVal.map m
    ∧ (∀ k, (assocLookup m k).isSome = (assocLookup doc k).isSome)
    ∧ (∀ k d, assocLookup doc k = some (.dict d) → assocLookup m k = some (.map d))
    ∧ (∀ k l, assocLookup doc k = some (.lst l) →
        ∃ l2, assocLookup m k = some (.list l2) ∧ ∀ x, x ∈ l2 ↔ x ∈ l)

theorem assocLookup_isSome_of_forall2 {α β : Type} (R : α → β → Prop)
    (ds : List (String × α)) (ms : List (String × β))
    (hrel : List.Forall₂ (fun p q => p.1 = q.1 ∧ R p.2 q.2) ds ms) :
    ∀ k, (assocLookup ms k).isSome = (assocLookup ds k).isSome := by
  induction hrel with
  | nil =>
    intro k
    rfl
  | @cons a b l1 l2 hab hrest ih =>
    intro k
    obtain ⟨ka, va⟩ := a
    obtain ⟨kb, vb⟩ := b
    obtain ⟨hk, hR⟩ := hab
    simp only at hk
    subst hk
    by_cases hkk : ka = k
    · simp [assocLookup, hkk]
    · simp [assocLookup, hkk, ih k]

theorem assocLookup_rel_of_forall2 {α β : Type} (R : α → β → Prop)
    (ds : List (String × α)) (ms : List (String × β))
    (hrel : List.Forall₂ (fun p q => p.1 = q.1 ∧ R p.2 q.2) ds ms) :
    ∀ k dv, assocLookup ds k = some dv → ∃ pv, assocLookup ms k = some pv ∧ R dv pv := by
  induction hrel with
  | nil =>
    intro k dv hkdv
    cases hkdv
  | @cons a b l1 l2 hab hrest ih =>
    intro k dv hkdv
    obtain ⟨ka, va⟩ := a
    obtain ⟨kb, vb⟩ := b
    obtain ⟨hk, hR⟩ := hab
    simp only at hk hR
    subst hk
    by_cases hkk : ka = k
    · simp only [assocLookup, if_pos hkk] at hkdv ⊢
      injection hkdv with h2
      subst h2
      exact ⟨vb, rfl, hR⟩
    · simp only [assocLookup, if_neg hkk] at hkdv ⊢
      exact ih k dv hkdv

/-! ## Claim theorems -/

/-- C1: merging two fragment files that each parse to a mapping with an
`intents` list yields a merged document whose `intents` collection is the
deduplicated set-union of the two lists (order not significant). -/
theorem intents_merge_is_dedup_union (xs ys : List PyVal)
    (hx : ∀ x ∈ xs, hashable x = true) (hy : ∀ y ∈ ys, hashable y = true) :
    ∃ doc l,
      get_domain_file [YamlFile.parsed (.map [("intents", .list xs)]),
                       YamlFile.parsed (.map [("intents", .list ys)])] = .ok doc
        ∧ assocLookup doc "intents" = some (.lst l)
        ∧ l.Nodup
        ∧ (∀ z, z ∈ l ↔ z ∈ xs ∨ z ∈ ys) := by
  have h1 : setUpdate [] xs = .ok (xs.foldl setInsert []) := setUpdate_ok [] xs hx
  have h2 : setUpdate (xs.foldl setInsert []) ys
      = .ok (ys.foldl setInsert (xs.foldl setInsert [])) := setUpdate_ok _ ys hy
  have e1 : processFragment initData (YamlFile.parsed (.map [("intents", .list xs)]))
      = .ok (mkData [] [] (xs.foldl setInsert []) [] []) := by
    show processItems (mkData [] [] [] [] []) [("intents", PyVal.list xs)] = _
    rw [processItems_intents_step [] [] [] [] [] (PyVal.list xs) xs _ [] rfl h1]
    rfl
  have e2 : processFragment (mkData [] [] (xs.foldl setInsert []) [] [])
      (YamlFile.parsed (.map [("intents", .list ys)]))
      = .ok (mkData [] [] (ys.foldl setInsert (xs.foldl setInsert [])) [] []) := by
    show processItems (mkData [] [] (xs.foldl setInsert []) [] []) [("intents", PyVal.list ys)] = _
    rw [processItems_intents_step [] [] _ [] [] (PyVal.list ys) ys _ [] rfl h2]
    rfl
  refine ⟨[("slots", DVal.dict []), ("entities", DVal.lst []),
          ("intents", DVal.lst (ys.foldl setInsert (xs.foldl setInsert []))),
          ("templates", DVal.dict []), ("actions", DVal.lst [])],
         ys.foldl setInsert (xs.foldl setInsert []), ?_, rfl, ?_, ?_⟩
  · unfold get_domain_file
    simp only [mergeLoop, e1, e2]
    rfl
  · exact nodup_foldl_setInsert _ _ (nodup_foldl_setInsert _ _ List.nodup_nil)
  · intro z
    rw [mem_foldl_setInsert, mem_foldl_setInsert]
    simp

/-- C1 witness: the spec's own example, `intents [a, b]` merged with
`intents [b, c]`. -/
theorem intents_merge_is_dedup_union_witness :
    (∀ x ∈ [PyVal.str "a", PyVal.str "b"], hashable x = true)
      ∧ (∀ y ∈ [PyVal.str "b", PyVal.str "c"], hashable y = true)
      ∧ ∃ doc l,
          get_domain_file [YamlFile.parsed (.map [("intents", .list [PyVal.str "a", PyVal.str "b"])]),
                           YamlFile.parsed (.map [("intents", .list [PyVal.str "b", PyVal.str "c"])])]
              = .ok doc
            ∧ assocLookup doc "intents" = some (.lst l)
            ∧ l.Nodup
            ∧ (∀ z, z ∈ l ↔ z ∈ [PyVal.str "a", PyVal.str "b"] ∨ z ∈ [PyVal.str "b", PyVal.str "c"]) :=
  ⟨by decide, by decide,
   intents_merge_is_dedup_union [PyVal.str "a", PyVal.str "b"] [PyVal.str "b", PyVal.str "c"]
     (by decide) (by decide)⟩

/-- C4: merging zero domain files (missing directory or no `*.yml`/`*.yaml`
matches, so the glob yields nothing) succeeds with a document in which all
five keys are present and empty. -/
theorem empty_input_yields_empty_document :
    get_domain_file []
      = .ok [("slots", .dict []), ("entities", .lst []), ("intents", .lst []),
             ("templates", .dict []), ("actions", .lst [])] := rfl

/-- C3: if any fragment parses to a mapping containing a top-level key outside
the five recognized domain keys, `get_domain_file` aborts with an error. -/
theorem unrecognized_key_aborts_merge (frags : List YamlFile)
    (kvs : List (String × PyVal)) (k : String) (w : PyVal)
    (hmem : YamlFile.parsed (PyVal.map kvs) ∈ frags) (hkv : (k, w) ∈ kvs)
    (hk : k ∉ fiveKeys) :
    ∃ e, get_domain_file frags = .error e := by
  have hnone : assocLookup initData k = none := by
    rw [assocLookup_eq_none_iff]
    simpa [initData, fiveKeys] using hk
  obtain ⟨e, he⟩ := mergeLoop_error_of_badfrag kvs k w hkv frags initData hmem hnone
  refine ⟨e, ?_⟩
  unfold get_domain_file
  rw [he]

/-- C3 witness: a single fragment with the unknown key `foo`. -/
theorem unrecognized_key_aborts_merge_witness :
    (YamlFile.parsed (PyVal.map [("foo", PyVal.null)])
        ∈ [YamlFile.parsed (PyVal.map [("foo", PyVal.null)])])
      ∧ (("foo", PyVal.null) ∈ [("foo", PyVal.null)])
      ∧ "foo" ∉ fiveKeys
      ∧ ∃ e, get_domain_file [YamlFile.parsed (PyVal.map [("foo", PyVal.null)])] = .error e :=
  ⟨List.mem_singleton.mpr rfl, List.mem_singleton.mpr rfl, by decide,
   unrecognized_key_aborts_merge [YamlFile.parsed (PyVal.map [("foo", PyVal.null)])]
     [("foo", PyVal.null)] "foo" PyVal.null (List.mem_singleton.mpr rfl)
     (List.mem_singleton.mpr rfl) (by decide)⟩

/-- C6: a malformed YAML fragment aborts the whole merge with the parse
error, whatever fragments follow it: no merged document is produced and no
partial result over the remaining files is recovered. -/
theorem malformed_yaml_aborts_merge (pre post : List YamlFile) (d : List (String × DVal))
    (h : (mergeLoop initData pre).2 = .ok d) :
    get_domain_file (pre ++ YamlFile.malformed :: post) = .error .parseError := by
  unfold get_domain_file
  rw [mergeLoop_append_snd, h]
  rfl

/-- C6 witness: the malformed file alone (with another fragment after it that
is never reached). -/
theorem malformed_yaml_aborts_merge_witness :
    (mergeLoop initData []).2 = .ok initData
      ∧ get_domain_file ([] ++ YamlFile.malformed
          :: [YamlFile.parsed (PyVal.map [("intents", PyVal.list [PyVal.str "a"])])])
        = .error .parseError :=
  ⟨rfl, malformed_yaml_aborts_merge []
    [YamlFile.parsed (PyVal.map [("intents", PyVal.list [PyVal.str "a"])])] initData rfl⟩

/-- `v` is a YAML mapping (decidable shape test used in hypotheses). -/
def isMapB : PyVal → Bool
  | .map _ => true
  | _ => false

/-- C2: when two fragments each define the mapping-valued key `slots` (or
`templates`) and both bind the same name, the merged document carries the
second file's definition for that name — mapping-valued keys merge by key
overwrite, not union. -/
theorem mapping_key_second_file_wins (K : String) (hK : K = "slots" ∨ K = "templates")
    (d1 d2 : List (String × PyVal)) (name : String) (v : PyVal)
    (hnd : (d2.map Prod.fst).Nodup) (hv : assocLookup d2 name = some v) :
    ∃ doc dd,
      get_domain_file [YamlFile.parsed (.map [(K, .map d1)]),
                       YamlFile.parsed (.map [(K, .map d2)])] = .ok doc
        ∧ assocLookup doc K = some (.dict dd)
        ∧ assocLookup dd name = some v := by
  have hndD : ((dictUpdate (dictUpdate [] d1) d2).map Prod.fst).Nodup :=
    keyNodup_dictUpdate _ _ (keyNodup_dictUpdate _ _ List.nodup_nil)
  have hlook : assocLookup (dictUpdate (dictUpdate [] d1) d2) name = some v :=
    assocLookup_dictUpdate_of_mem _ d2 name v hnd hv
  rcases hK with rfl | rfl
  · have e0 : get_domain_file [YamlFile.parsed (.map [("slots", .map d1)]),
        YamlFile.parsed (.map [("slots", .map d2)])]
        = .ok [("slots",
                 DVal.dict (dictUpdate (dictUpdate (dictUpdate [] d1) d2)
                   (dictUpdate (dictUpdate [] d1) d2))),
               ("entities", DVal.lst []), ("intents", DVal.lst []),
               ("templates", DVal.dict (dictUpdate [] [])), ("actions", DVal.lst [])] := rfl
    rw [dictUpdate_self_of_nodupKeys _ hndD] at e0
    exact ⟨_, dictUpdate (dictUpdate [] d1) d2, e0, rfl, hlook⟩
  · have e0 : get_domain_file [YamlFile.parsed (.map [("templates", .map d1)]),
        YamlFile.parsed (.map [("templates", .map d2)])]
        = .ok [("slots", DVal.dict (dictUpdate [] [])),
               ("entities", DVal.lst []), ("intents", DVal.lst []),
               ("templates",
                 DVal.dict (dictUpdate (dictUpdate (dictUpdate [] d1) d2)
                   (dictUpdate (dictUpdate [] d1) d2))),
               ("actions", DVal.lst [])] := rfl
    rw [dictUpdate_self_of_nodupKeys _ hndD] at e0
    exact ⟨_, dictUpdate (dictUpdate [] d1) d2, e0, rfl, hlook⟩

/-- C2 witness: two fragments both defining slot `s1`; the second definition
(`b`) wins. -/
theorem mapping_key_second_file_wins_witness :
    ("slots" = "slots" ∨ "slots" = "templates")
      ∧ (([("s1", PyVal.str "b")].map Prod.fst).Nodup)
      ∧ assocLookup [("s1", PyVal.str "b")] "s1" = some (PyVal.str "b")
      ∧ ∃ doc dd,
          get_domain_file [YamlFile.parsed (.map [("slots", .map [("s1", PyVal.str "a")])]),
                           YamlFile.parsed (.map [("slots", .map [("s1", PyVal.str "b")])])]
              = .ok doc
            ∧ assocLookup doc "slots" = some (.dict dd)
            ∧ assocLookup dd "s1" = some (PyVal.str "b") :=
  ⟨Or.inl rfl, by decide, by decide,
   mapping_key_second_file_wins "slots" (Or.inl rfl) [("s1", PyVal.str "a")]
     [("s1", PyVal.str "b")] "s1" (PyVal.str "b") (by decide) (by decide)⟩

/-- C5: on valid fragments (each parsing to a mapping whose keys are among the
five recognized keys, with mergeable values) the produced document contains
all five keys, and `entities`, `intents`, `actions` are serialized as
deduplicated list-typed collections, not sets. -/
theorem valid_merge_has_five_keys_dedup_lists (frags : List YamlFile)
    (h : ∀ f ∈ frags, validFragment f = true) :
    ∃ doc, get_domain_file frags = .ok doc
      ∧ (∀ k ∈ fiveKeys, (assocLookup doc k).isSome = true)
      ∧ (∀ k ∈ (["entities", "intents", "actions"] : List String),
           ∃ l, assocLookup doc k = some (.lst l) ∧ l.Nodup) := by
  obtain ⟨sl, en, it, tm, ac, hd, hg⟩ := get_domain_file_good frags h
  refine ⟨_, hd, ?_, ?_⟩
  · intro k hk
    simp only [fiveKeys, List.mem_cons, List.not_mem_nil, or_false] at hk
    rcases hk with rfl | rfl | rfl | rfl | rfl <;> rfl
  · intro k hk
    simp only [List.mem_cons, List.not_mem_nil, or_false] at hk
    rcases hk with rfl | rfl | rfl
    · exact ⟨en, rfl, hg.hen⟩
    · exact ⟨it, rfl, hg.hit⟩
    · exact ⟨ac, rfl, hg.hac⟩

/-- C5 witness: one valid fragment with a duplicated intent. -/
theorem valid_merge_has_five_keys_dedup_lists_witness :
    (∀ f ∈ [YamlFile.parsed (.map [("intents", PyVal.list [PyVal.str "a", PyVal.str "a"])])],
        validFragment f = true)
      ∧ ∃ doc,
          get_domain_file [YamlFile.parsed (.map [("intents", PyVal.list [PyVal.str "a", PyVal.str "a"])])]
              = .ok doc
            ∧ (∀ k ∈ fiveKeys, (assocLookup doc k).isSome = true)
            ∧ (∀ k ∈ (["entities", "intents", "actions"] : List String),
                 ∃ l, assocLookup doc k = some (.lst l) ∧ l.Nodup) :=
  ⟨by decide,
   valid_merge_has_five_keys_dedup_lists
     [YamlFile.parsed (.map [("intents", PyVal.list [PyVal.str "a", PyVal.str "a"])])]
     (by decide)⟩

/-- C8: a fragment that parses to a truthy (non-empty) YAML value that is not
a mapping makes `get_domain_file` raise `AttributeError` (from `.items()`),
whatever fragments precede or follow it — it is never coerced or skipped. -/
theorem truthy_nonmapping_fragment_errors (pre post : List YamlFile) (v : PyVal)
    (d : List (String × DVal)) (h : (mergeLoop initData pre).2 = .ok d)
    (ht : isTruthy v = true) (hm : isMapB v = false) :
    get_domain_file (pre ++ YamlFile.parsed v :: post) = .error .attrError := by
  have hpf : processFragment d (YamlFile.parsed v) = .error .attrError := by
    cases v with
    | map kvs => simp [isMapB] at hm
    | str s => simp [processFragment, ht]
    | null => simp [isTruthy] at ht
    | list xs => simp [processFragment, ht]
  unfold get_domain_file
  rw [mergeLoop_append_snd, h]
  show (match (mergeLoop d (YamlFile.parsed v :: post)).2 with
        | Except.error e => Except.error e
        | Except.ok data => Except.ok (finalize data)) = _
  simp [mergeLoop, hpf]

/-- C8 witness: a top-level YAML list as the only fragment. -/
theorem truthy_nonmapping_fragment_errors_witness :
    (mergeLoop initData []).2 = .ok initData
      ∧ isTruthy (PyVal.list [PyVal.str "x"]) = true
      ∧ isMapB (PyVal.list [PyVal.str "x"]) = false
      ∧ get_domain_file ([] ++ YamlFile.parsed (PyVal.list [PyVal.str "x"]) :: [])
          = .error .attrError :=
  ⟨rfl, rfl, rfl,
   truthy_nonmapping_fragment_errors [] [] (PyVal.list [PyVal.str "x"]) initData rfl rfl rfl⟩

/-- C9: a fragment that maps a set-valued key (`entities`, `intents` or
`actions`) to a single string is not rejected: `set.update` iterates the
string, so each individual character becomes an element of the merged set for
that key. -/
theorem string_set_value_adds_characters (K : String)
    (hK : K = "entities" ∨ K = "intents" ∨ K = "actions") (s : String) :
    ∃ doc l,
      get_domain_file [YamlFile.parsed (.map [(K, PyVal.str s)])] = .ok doc
        ∧ assocLookup doc K = some (.lst l)
        ∧ (∀ z, z ∈ l ↔ ∃ c, c ∈ s.data ∧ z = PyVal.str (String.singleton c))
        ∧ l.Nodup := by
  have hh : ∀ x ∈ s.data.map (fun c => PyVal.str (String.singleton c)), hashable x = true := by
    intro x hx
    rcases List.mem_map.mp hx with ⟨c, _, rfl⟩
    rfl
  have h1 : setUpdate [] (s.data.map (fun c => PyVal.str (String.singleton c)))
      = .ok ((s.data.map (fun c => PyVal.str (String.singleton c))).foldl setInsert []) :=
    setUpdate_ok _ _ hh
  have hmem : ∀ z, z ∈ (s.data.map (fun c => PyVal.str (String.singleton c))).foldl setInsert []
      ↔ ∃ c, c ∈ s.data ∧ z = PyVal.str (String.singleton c) := by
    intro z
    rw [mem_foldl_setInsert]
    constructor
    · rintro (h | h)
      · cases h
      · rcases List.mem_map.mp h with ⟨c, hc, he⟩
        exact ⟨c, hc, he.symm⟩
    · rintro ⟨c, hc, he⟩
      exact Or.inr (List.mem_map.mpr ⟨c, hc, he.symm⟩)
  have hnd : ((s.data.map (fun c => PyVal.str (String.singleton c))).foldl setInsert []).Nodup :=
    nodup_foldl_setInsert _ _ List.nodup_nil
  rcases hK with rfl | rfl | rfl
  · have e1 : processFragment initData (YamlFile.parsed (.map [("entities", PyVal.str s)]))
        = .ok (mkData []
            ((s.data.map (fun c => PyVal.str (String.singleton c))).foldl setInsert [])
            [] [] []) := by
      show processItems (mkData [] [] [] [] []) [("entities", PyVal.str s)] = _
      rw [processItems_entities_step [] [] [] [] [] (PyVal.str s) _ _ [] rfl h1]
      rfl
    refine ⟨[("slots", DVal.dict []),
            ("entities", DVal.lst
              ((s.data.map (fun c => PyVal.str (String.singleton c))).foldl setInsert [])),
            ("intents", DVal.lst []),
            ("templates", DVal.dict []), ("actions", DVal.lst [])],
           (s.data.map (fun c => PyVal.str (String.singleton c))).foldl setInsert [],
           ?_, rfl, hmem, hnd⟩
    unfold get_domain_file
    simp only [mergeLoop, e1]
    rfl
  · have e1 : processFragment initData (YamlFile.parsed (.map [("intents", PyVal.str s)]))
        = .ok (mkData [] []
            ((s.data.map (fun c => PyVal.str (String.singleton c))).foldl setInsert [])
            [] []) := by
      show processItems (mkData [] [] [] [] []) [("intents", PyVal.str s)] = _
      rw [processItems_intents_step [] [] [] [] [] (PyVal.str s) _ _ [] rfl h1]
      rfl
    refine ⟨[("slots", DVal.dict []), ("entities", DVal.lst []),
            ("intents", DVal.lst
              ((s.data.map (fun c => PyVal.str (String.singleton c))).foldl setInsert [])),
            ("templates", DVal.dict []), ("actions", DVal.lst [])],
           (s.data.map (fun c => PyVal.str (String.singleton c))).foldl setInsert [],
           ?_, rfl, hmem, hnd⟩
    unfold get_domain_file
    simp only [mergeLoop, e1]
    rfl
  · have e1 : processFragment initData (YamlFile.parsed (.map [("actions", PyVal.str s)]))
        = .ok (mkData [] [] [] []
            ((s.data.map (fun c => PyVal.str (String.singleton c))).foldl setInsert [])) := by
      show processItems (mkData [] [] [] [] []) [("actions", PyVal.str s)] = _
      rw [processItems_actions_step [] [] [] [] [] (PyVal.str s) _ _ [] rfl h1]
      rfl
    refine ⟨[("slots", DVal.dict []), ("entities", DVal.lst []), ("intents", DVal.lst []),
            ("templates", DVal.dict []),
            ("actions", DVal.lst
              ((s.data.map (fun c => PyVal.str (String.singleton c))).foldl setInsert []))],
           (s.data.map (fun c => PyVal.str (String.singleton c))).foldl setInsert [],
           ?_, rfl, hmem, hnd⟩
    unfold get_domain_file
    simp only [mergeLoop, e1]
    rfl

/-- C9 witness: the key `entities` mapped to the string `ab`, whose two
characters become the two elements of the merged set. -/
theorem string_set_value_adds_characters_witness :
    ("entities" = "entities" ∨ "entities" = "intents" ∨ "entities" = "actions")
      ∧ ∃ doc l,
          get_domain_file [YamlFile.parsed (.map [("entities", PyVal.str "ab")])] = .ok doc
            ∧ assocLookup doc "entities" = some (.lst l)
            ∧ (∀ z, z ∈ l ↔ ∃ c, c ∈ ("ab" : String).data ∧ z = PyVal.str (String.singleton c))
            ∧ l.Nodup :=
  ⟨Or.inl rfl, string_set_value_adds_characters "entities" (Or.inl rfl) "ab"⟩

/-- C10: the temporary output file is created before any fragment is read, so
on any failing merge the run leaves an already-created, still-empty temporary
domain file on disk (`delete` is `False`, nothing was dumped). -/
theorem temp_file_created_before_merge_failure (frags : List YamlFile)
    (h : ∃ e, get_domain_file frags = .error e) :
    (get_domain_file_run frags).events.head? = some Ev.createTemp
      ∧ Ev.dump ∉ (get_domain_file_run frags).events
      ∧ (get_domain_file_run frags).tempFileExists = true
      ∧ (get_domain_file_run frags).tempFileContents = none := by
  obtain ⟨e, he⟩ := h
  have hml : (mergeLoop initData frags).2 = .error e := by
    unfold get_domain_file at he
    cases hm : (mergeLoop initData frags).2 with
    | error e2 =>
      rw [hm] at he
      cases he
      rfl
    | ok d =>
      rw [hm] at he
      cases he
  have hrun : get_domain_file_run frags =
      { events := Ev.createTemp :: (mergeLoop initData frags).1
        tempFileExists := true
        tempFileContents := none
        result := .error e } := by
    unfold get_domain_file_run
    rw [hml]
  rw [hrun]
  refine ⟨rfl, ?_, rfl, rfl⟩
  intro hmem
  rcases List.mem_cons.mp hmem with h1 | h1
  · cases h1
  · have h2 := mergeLoop_events initData frags Ev.dump h1
    cases h2

/-- C10 witness: the single malformed fragment. -/
theorem temp_file_created_before_merge_failure_witness :
    (∃ e, get_domain_file [YamlFile.malformed] = .error e)
      ∧ (get_domain_file_run [YamlFile.malformed]).events.head? = some Ev.createTemp
      ∧ Ev.dump ∉ (get_domain_file_run [YamlFile.malformed]).events
      ∧ (get_domain_file_run [YamlFile.malformed]).tempFileExists = true
      ∧ (get_domain_file_run [YamlFile.malformed]).tempFileContents = none :=
  ⟨⟨.parseError, rfl⟩,
   temp_file_created_before_merge_failure [YamlFile.malformed] ⟨.parseError, rfl⟩⟩

/-- C7: round-trip — on valid fragments the merge succeeds, the merged
document serializes, and re-parsing the serialized text yields a mapping
equivalent to the merged document: the same five keys, the same slot and
template mappings, and the same entities/intents/actions contents as sets,
ignoring list order. -/
theorem merged_document_roundtrip (frags : List YamlFile)
    (h : ∀ f ∈ frags, validFragment f = true) :
    ∃ doc s pv,
      get_domain_file frags = .ok doc
        ∧ dumpDoc doc = some s
        ∧ yamlSafeLoad s = some pv
        ∧ docEquiv pv doc := by
  obtain ⟨sl, en, it, tm, ac, hd, hg⟩ := get_domain_file_good frags h
  have hrel : List.Forall₂ (fun (p : String × DVal) (q : String × PyVal) =>
      p.1 = q.1 ∧ dvalToPyVal p.2 = some q.2)
      [("slots", DVal.dict sl), ("entities", DVal.lst en), ("intents", DVal.lst it),
       ("templates", DVal.dict tm), ("actions", DVal.lst ac)]
      [("slots", PyVal.map sl), ("entities", PyVal.list en), ("intents", PyVal.list it),
       ("templates", PyVal.map tm), ("actions", PyVal.list ac)] := by
    refine List.Forall₂.cons ⟨rfl, rfl⟩ ?_
    refine List.Forall₂.cons ⟨rfl, rfl⟩ ?_
    refine List.Forall₂.cons ⟨rfl, rfl⟩ ?_
    refine List.Forall₂.cons ⟨rfl, rfl⟩ ?_
    exact List.Forall₂.cons ⟨rfl, rfl⟩ List.Forall₂.nil
  refine ⟨[("slots", DVal.dict sl), ("entities", DVal.lst en), ("intents", DVal.lst it),
           ("templates", DVal.dict tm), ("actions", DVal.lst ac)],
          yamlDump (PyVal.map [("slots", PyVal.map sl), ("entities", PyVal.list en),
            ("intents", PyVal.list it), ("templates", PyVal.map tm),
            ("actions", PyVal.list ac)]),
          PyVal.map [("slots", PyVal.map sl), ("entities", PyVal.list en),
            ("intents", PyVal.list it), ("templates", PyVal.map tm),
            ("actions", PyVal.list ac)],
          hd, rfl, yaml_roundtrip _, ?_⟩
  refine ⟨[("slots", PyVal.map sl), ("entities", PyVal.list en), ("intents", PyVal.list it),
           ("templates", PyVal.map tm), ("actions", PyVal.list ac)], rfl,
          assocLookup_isSome_of_forall2 (fun dv pv => dvalToPyVal dv = some pv) _ _ hrel, ?_, ?_⟩
  · intro k d hk
    obtain ⟨pv, hpv, hR⟩ := assocLookup_rel_of_forall2 (fun dv pv => dvalToPyVal dv = some pv) _ _ hrel k (DVal.dict d) hk
    have hR2 : (some (PyVal.map d) : Option PyVal) = some pv := hR
    injection hR2 with hR3
    rw [hpv, ← hR3]
  · intro k l hk
    obtain ⟨pv, hpv, hR⟩ := assocLookup_rel_of_forall2 (fun dv pv => dvalToPyVal dv = some pv) _ _ hrel k (DVal.lst l) hk
    have hR2 : (some (PyVal.list l) : Option PyVal) = some pv := hR
    injection hR2 with hR3
    refine ⟨l, ?_, fun x => Iff.rfl⟩
    rw [hpv, ← hR3]

/-- C7 witness: one valid fragment with a single intent. -/
theorem merged_document_roundtrip_witness :
    (∀ f ∈ [YamlFile.parsed (.map [("intents", PyVal.list [PyVal.str "a"])])],
        validFragment f = true)
      ∧ ∃ doc s pv,
          get_domain_file [YamlFile.parsed (.map [("intents", PyVal.list [PyVal.str "a"])])]
              = .ok doc
            ∧ dumpDoc doc = some s
            ∧ yamlSafeLoad s = some pv
            ∧ docEquiv pv doc :=
  ⟨by decide,
   merged_document_roundtrip
     [YamlFile.parsed (.map [("intents", PyVal.list [PyVal.str "a"])])] (by decide)⟩
